import Mathlib

/-!
Shallow embedding of cgohlke/akima (src/akima/akima.py), the pure-Python
Akima interpolation routine, over exact rational arithmetic.  Lists of
rationals model one-dimensional numpy float64 arrays; out-of-range indexing
uses a default of 0, but every theorem keeps its indices in range via the
validation preconditions that the source enforces before any array access.
-/

namespace Akima

/-- Element access, modelling numpy 1D array indexing with nonnegative index. -/
def idx (l : List ℚ) (i : ℕ) : ℚ := l.getD i 0

/-- Consecutive differences, modelling numpy.diff. -/
def diff : List ℚ → List ℚ
  | a :: b :: r => (b - a) :: diff (b :: r)
  | _ => []

/-- Knot spacing, dx = numpy.diff(x). -/
def dx (x : List ℚ) (i : ℕ) : ℚ := idx x (i + 1) - idx x i

/-- Secant slopes, m = numpy.diff(y) / dx. -/
def m (x y : List ℚ) (i : ℕ) : ℚ := (idx y (i + 1) - idx y i) / dx x i

/-- Synthetic slope mm = 2.0 * m[0] - m[1]. -/
def mm (x y : List ℚ) : ℚ := 2 * m x y 0 - m x y 1

/-- Synthetic slope mmm = 2.0 * mm - m[0]. -/
def mmm (x y : List ℚ) : ℚ := 2 * mm x y - m x y 0

/-- Synthetic slope mp = 2.0 * m[n - 2] - m[n - 3]. -/
def mp (x y : List ℚ) : ℚ :=
  2 * m x y (x.length - 2) - m x y (x.length - 3)

/-- Synthetic slope mpp = 2.0 * mp - m[n - 2]. -/
def mpp (x y : List ℚ) : ℚ := 2 * mp x y - m x y (x.length - 2)

/-- Extended slope sequence m1 = concatenate(([mmm], [mm], m, [mp], [mpp])),
indexed 0 .. n + 2 (length n + 3): m1[0] = mmm, m1[1] = mm,
m1[2 + j] = m[j] for j = 0 .. n - 2, m1[n + 1] = mp, m1[n + 2] = mpp. -/
def m1 (x y : List ℚ) (i : ℕ) : ℚ :=
  if i = 0 then mmm x y
  else if i = 1 then mm x y
  else if i ≤ x.length then m x y (i - 2)
  else if i = x.length + 1 then mp x y
  else mpp x y

/-- dm = numpy.abs(numpy.diff(m1)), indexed 0 .. n + 1. -/
def dm (x y : List ℚ) (i : ℕ) : ℚ := |m1 x y (i + 1) - m1 x y i|

/-- f1 = dm[2 : n + 2], i.e. f1[i] = dm[i + 2]. -/
def f1 (x y : List ℚ) (i : ℕ) : ℚ := dm x y (i + 2)

/-- f2 = dm[0 : n], i.e. f2[i] = dm[i]. -/
def f2 (x y : List ℚ) (i : ℕ) : ℚ := dm x y i

/-- f12 = f1 + f2. -/
def f12 (x y : List ℚ) (i : ℕ) : ℚ := f1 x y i + f2 x y i

/-- numpy.max(f12): the maximum of f12 over indices 0 .. n - 1.  Every entry
of f12 is a sum of two absolute values, hence nonnegative, so folding max
with initial value 0 over the n entries yields exactly numpy.max(f12). -/
def maxf12 (x y : List ℚ) : ℚ :=
  ((List.range x.length).map (f12 x y)).foldr max 0

/-- The fixed relative threshold 1e-9 of the source. -/
def eps : ℚ := 1 / 1000000000

/-- Per-point derivative b: b = m1[1 : n + 1] by default, overwritten at the
indices ids = nonzero(f12 > 1e-9 * max(f12)) with
(f1 * m1[ids + 1] + f2 * m1[ids + 2]) / f12 (the right-hand side of the
numpy fancy assignment is evaluated before the store, so the pure
conditional below is its exact meaning). -/
def b (x y : List ℚ) (i : ℕ) : ℚ :=
  if eps * maxf12 x y < f12 x y i then
    (f1 x y i * m1 x y (i + 1) + f2 x y i * m1 x y (i + 2)) / f12 x y i
  else m1 x y (i + 1)

/-- Quadratic coefficient c = (3.0 * m - 2.0 * b[0 : n - 1] - b[1 : n]) / dx. -/
def c (x y : List ℚ) (i : ℕ) : ℚ :=
  (3 * m x y i - 2 * b x y i - b x y (i + 1)) / dx x i

/-- Cubic coefficient d = (b[0 : n - 1] + b[1 : n] - 2.0 * m) / dx ** 2. -/
def d (x y : List ℚ) (i : ℕ) : ℚ :=
  (b x y i + b x y (i + 1) - 2 * m x y i) / dx x i ^ 2

/-- numpy.digitize(q, x) for monotonically increasing bins x: the number of
knots x[j] with x[j] <= q (the right-insertion index of q into x). -/
def digitize (x : List ℚ) (q : ℚ) : ℕ :=
  x.countP fun v => decide (v ≤ q)

/-- Segment index bins = numpy.minimum(numpy.digitize(xi, x), n - 1) - 1. -/
def seg (x : List ℚ) (q : ℚ) : ℕ := min (digitize x q) (x.length - 1) - 1

/-- Evaluation of one query, following the source expression
((wj * d[bb] + c[bb]) * wj + b[bb]) * wj + y[bb] with wj = xi - x[bb]. -/
def evalAt (x y : List ℚ) (q : ℚ) : ℚ :=
  let k := seg x q
  let wj := q - idx x k
  ((wj * d x y k + c x y k) * wj + b x y k) * wj + idx y k

/-- A numpy array as the source sees it: its number of dimensions and, for
the one-dimensional case the algorithm supports, its elements.  The code
reads data only after checking ndim = 1. -/
structure Arr where
  ndim : ℕ
  data : List ℚ
deriving DecidableEq

/-- The two exception types the source raises. -/
inductive PyError where
  | notImplementedError (msg : String)
  | valueError (msg : String)
deriving DecidableEq

/-- The full interpolate function: the validation chain in source order,
then the derivative, coefficient and evaluation stages.  axis and out keep
their Python defaults as optional parameters. -/
def interpolate (x y xi : Arr) (axis : ℤ := -1)
    (out : Option (List ℚ) := none) : Except PyError (List ℚ) :=
  if axis ≠ -1 ∨ out ≠ none ∨ y.ndim ≠ 1 then
    .error (.notImplementedError "implemented in C extension module")
  else if x.ndim ≠ 1 ∨ xi.ndim ≠ 1 then
    .error (.valueError "x-arrays must be one dimensional")
  else if x.data.length < 3 then
    .error (.valueError "array too small")
  else if x.data.length ≠ y.data.length then
    .error (.valueError "size of x-array must match data shape")
  else if (diff x.data).any (fun v => decide (v ≤ 0)) then
    .error (.valueError "x-axis not valid")
  else if (xi.data.any fun q => decide (q < idx x.data 0)) ∨
      (xi.data.any fun q => decide (idx x.data (x.data.length - 1) < q)) then
    .error (.valueError "interpolation x-axis out of bounds")
  else
    .ok (xi.data.map (evalAt x.data y.data))

/-- The validated-input predicate, phrased by the checks of the source: at
least three knots, matching lengths, and all consecutive differences of x
positive (strictly increasing abscissas). -/
def Valid (x y : List ℚ) : Prop :=
  3 ≤ x.length ∧ y.length = x.length ∧
    ((diff x).all fun v => decide (0 < v)) = true

/-- The cubic of segment i in local coordinates, S(t) = y[i] + b[i] t + c[i] t^2 + d[i] t^3. -/
def S (x y : List ℚ) (i : ℕ) (t : ℚ) : ℚ :=
  idx y i + b x y i * t + c x y i * t ^ 2 + d x y i * t ^ 3

/-- The formal derivative of the segment cubic. -/
def Sderiv (x y : List ℚ) (i : ℕ) (t : ℚ) : ℚ :=
  b x y i + 2 * c x y i * t + 3 * d x y i * t ^ 2

theorem diff_length : (x : List ℚ) → (diff x).length = x.length - 1
  | [] => rfl
  | [_] => rfl
  | a :: bb :: r => by
    have ih := diff_length (bb :: r)
    simp only [diff, List.length_cons] at ih ⊢
    omega

theorem diff_getD : (x : List ℚ) → (i : ℕ) → i + 1 < x.length →
    (diff x).getD i 0 = idx x (i + 1) - idx x i
  | a :: bb :: r, 0, _ => by simp [diff, idx]
  | a :: bb :: r, i + 1, h => by
    have ih := diff_getD (bb :: r) i (by simpa using Nat.lt_of_succ_lt_succ h)
    simpa [diff, idx, List.getD_cons_succ] using ih

theorem diff_all_pos_iff : (x : List ℚ) →
    ((((diff x).all fun v => decide (0 < v)) = true) ↔ x.Chain' (· < ·))
  | [] => by simp [diff]
  | [a] => by simp [diff]
  | a :: bb :: r => by
    have ih := diff_all_pos_iff (bb :: r)
    simp only [diff, List.all_cons, List.chain'_cons, Bool.and_eq_true, decide_eq_true_eq,
      sub_pos] at ih ⊢
    tauto

theorem valid_chain {x y : List ℚ} (h : Valid x y) : x.Chain' (· < ·) :=
  (diff_all_pos_iff x).1 h.2.2

theorem chain_mono {x : List ℚ} (h : x.Chain' (· < ·)) {i j : ℕ}
    (hij : i < j) (hj : j < x.length) : idx x i < idx x j := by
  have hp := (List.chain'_iff_pairwise).1 h
  have hg := List.pairwise_iff_get.1 hp ⟨i, lt_trans hij hj⟩ ⟨j, hj⟩ hij
  rw [idx, idx, List.getD_eq_getElem _ _ (lt_trans hij hj), List.getD_eq_getElem _ _ hj]
  simpa using hg

theorem chain_mono_le {x : List ℚ} (h : x.Chain' (· < ·)) {i j : ℕ}
    (hij : i ≤ j) (hj : j < x.length) : idx x i ≤ idx x j := by
  rcases Nat.eq_or_lt_of_le hij with rfl | hlt
  · exact le_refl _
  · exact le_of_lt (chain_mono h hlt hj)

theorem dx_pos {x y : List ℚ} (h : Valid x y) {i : ℕ} (hi : i + 1 < x.length) :
    0 < dx x i := by
  have := chain_mono (valid_chain h) (Nat.lt_succ_self i) hi
  simpa [dx, sub_pos] using this

theorem dx_ne_zero {x y : List ℚ} (h : Valid x y) {i : ℕ} (hi : i + 1 < x.length) :
    dx x i ≠ 0 := ne_of_gt (dx_pos h hi)

theorem idx_mem {l : List ℚ} {i : ℕ} (hi : i < l.length) : idx l i ∈ l := by
  rw [idx, List.getD_eq_getElem _ _ hi]
  exact List.getElem_mem hi

theorem le_iff_lt_digitize : (x : List ℚ) → x.Chain' (· < ·) →
    ∀ i, i < x.length → ∀ q : ℚ, (idx x i ≤ q ↔ i < digitize x q)
  | [], _, i, hi, q => by simp at hi
  | a :: l, hc, 0, hi, q => by
    have hp := (List.chain'_iff_pairwise).1 hc
    have ha : ∀ v ∈ l, a < v := (List.pairwise_cons.1 hp).1
    simp only [idx, List.getD_cons_zero, digitize, List.countP_cons]
    constructor
    · intro hq
      simp [hq]
    · intro hcount
      by_contra hq
      push_neg at hq
      have h0 : l.countP (fun v => decide (v ≤ q)) = 0 := by
        refine List.countP_eq_zero.2 fun v hv => ?_
        have := ha v hv
        simp only [decide_eq_true_eq]
        intro hle
        exact absurd (lt_of_lt_of_le (lt_trans hq this) hle) (lt_irrefl q)
      rw [h0, if_neg (by simpa using not_le_of_lt hq)] at hcount
      exact Nat.lt_irrefl 0 hcount
  | a :: l, hc, i + 1, hi, q => by
    have hp := (List.chain'_iff_pairwise).1 hc
    have ha : ∀ v ∈ l, a < v := (List.pairwise_cons.1 hp).1
    have hcl : l.Chain' (· < ·) := (List.chain'_cons'.1 hc).2
    have hil : i < l.length := by simpa using Nat.lt_of_succ_lt_succ hi
    have ih := le_iff_lt_digitize l hcl i hil q
    simp only [idx, List.getD_cons_succ, digitize, List.countP_cons] at ih ⊢
    by_cases hq : a ≤ q
    · rw [if_pos (by simpa using hq)]
      exact ih.trans (by omega)
    · push_neg at hq
      have h0 : l.countP (fun v => decide (v ≤ q)) = 0 := by
        refine List.countP_eq_zero.2 fun v hv => ?_
        have := ha v hv
        simp only [decide_eq_true_eq]
        intro hle
        exact absurd (lt_of_lt_of_le (lt_trans hq this) hle) (lt_irrefl q)
      rw [h0, if_neg (by simpa using not_le_of_lt hq)]
      constructor
      · intro hle
        exfalso
        have hmem : l.getD i 0 ∈ l := idx_mem hil
        exact absurd (lt_of_lt_of_le (lt_trans hq (ha _ hmem)) hle) (lt_irrefl q)
      · omega

theorem digitize_le_length (x : List ℚ) (q : ℚ) : digitize x q ≤ x.length :=
  List.countP_le_length _

theorem le_foldr_max {l : List ℚ} {a : ℚ} (h : a ∈ l) : a ≤ l.foldr max 0 := by
  induction l with
  | nil => simp at h
  | cons v t ih =>
    rcases List.mem_cons.1 h with rfl | hm
    · exact le_max_left _ _
    · exact le_trans (ih hm) (le_max_right _ _)

theorem foldr_max_nonneg (l : List ℚ) : 0 ≤ l.foldr max 0 := by
  induction l with
  | nil => exact le_refl 0
  | cons v t ih => exact le_trans ih (le_max_right _ _)

theorem foldr_max_mem : (l : List ℚ) → l ≠ [] → (∀ v ∈ l, 0 ≤ v) →
    l.foldr max 0 ∈ l
  | [v], _, hnn => by
    simp only [List.foldr_cons, List.foldr_nil]
    simp [max_eq_left (hnn v (by simp))]
  | v :: w :: t, _, hnn => by
    have ih := foldr_max_mem (w :: t) (by simp) fun u hu => hnn u (List.mem_cons_of_mem _ hu)
    have hfold : (v :: w :: t).foldr max 0 = max v ((w :: t).foldr max 0) := rfl
    rcases le_total v ((w :: t).foldr max 0) with hle | hle
    · rw [hfold, max_eq_right hle]
      exact List.mem_cons_of_mem _ ih
    · rw [hfold, max_eq_left hle]
      exact List.mem_cons_self _ _

theorem f12_nonneg (x y : List ℚ) (i : ℕ) : 0 ≤ f12 x y i :=
  add_nonneg (abs_nonneg _) (abs_nonneg _)

theorem le_maxf12 {x y : List ℚ} {i : ℕ} (hi : i < x.length) :
    f12 x y i ≤ maxf12 x y := by
  refine le_foldr_max (List.mem_map.2 ⟨i, List.mem_range.2 hi, rfl⟩)

theorem maxf12_nonneg (x y : List ℚ) : 0 ≤ maxf12 x y :=
  foldr_max_nonneg _

theorem maxf12_attained {x y : List ℚ} (h : 0 < x.length) :
    ∃ i < x.length, f12 x y i = maxf12 x y := by
  have hne : (List.range x.length).map (f12 x y) ≠ [] := by
    intro hcon
    have hlen : x.length = 0 := by
      have := congrArg List.length hcon
      simpa using this
    omega
  have hnn : ∀ v ∈ (List.range x.length).map (f12 x y), 0 ≤ v := by
    intro v hv
    rcases List.mem_map.1 hv with ⟨i, _, rfl⟩
    exact f12_nonneg x y i
  have hm := foldr_max_mem _ hne hnn
  rcases List.mem_map.1 hm with ⟨i, hir, hei⟩
  exact ⟨i, List.mem_range.1 hir, hei⟩

theorem m1_zero (x y : List ℚ) : m1 x y 0 = mmm x y := by simp [m1]

theorem m1_one (x y : List ℚ) : m1 x y 1 = mm x y := by simp [m1]

theorem m1_mid (x y : List ℚ) (j : ℕ) (hj : j + 2 ≤ x.length) :
    m1 x y (j + 2) = m x y j := by
  simp only [m1]
  rw [if_neg (by omega), if_neg (by omega), if_pos hj]
  simp

theorem m1_penult (x y : List ℚ) (h : 1 ≤ x.length) :
    m1 x y (x.length + 1) = mp x y := by
  simp only [m1]
  rw [if_neg (by omega), if_neg (by omega), if_neg (by omega)]
  simp

theorem m1_last (x y : List ℚ) : m1 x y (x.length + 2) = mpp x y := by
  simp only [m1]
  rw [if_neg (by omega), if_neg (by omega), if_neg (by omega), if_neg (by omega)]

theorem b_pos_branch {x y : List ℚ} {i : ℕ} (h : eps * maxf12 x y < f12 x y i) :
    b x y i = (f1 x y i * m1 x y (i + 1) + f2 x y i * m1 x y (i + 2)) / f12 x y i := by
  rw [b, if_pos h]

theorem b_neg_branch {x y : List ℚ} {i : ℕ} (h : ¬eps * maxf12 x y < f12 x y i) :
    b x y i = m1 x y (i + 1) := by
  rw [b, if_neg h]

theorem convex_combination_bounds {p q u v : ℚ} (hu : 0 ≤ u) (hv : 0 ≤ v)
    (hs : 0 < u + v) :
    min p q ≤ (u * p + v * q) / (u + v) ∧ (u * p + v * q) / (u + v) ≤ max p q := by
  constructor
  · rw [le_div_iff₀ hs]
    nlinarith [min_le_left p q, min_le_right p q]
  · rw [div_le_iff₀ hs]
    nlinarith [le_max_left p q, le_max_right p q]

theorem horner_eq_S (x y : List ℚ) (i : ℕ) (w : ℚ) :
    ((w * d x y i + c x y i) * w + b x y i) * w + idx y i = S x y i w := by
  rw [S]
  ring

theorem S_zero (x y : List ℚ) (i : ℕ) : S x y i 0 = idx y i := by
  simp [S]

theorem Sderiv_zero (x y : List ℚ) (i : ℕ) : Sderiv x y i 0 = b x y i := by
  simp [Sderiv]

theorem S_dx {x y : List ℚ} {i : ℕ} (hdx : dx x i ≠ 0) :
    S x y i (dx x i) = idx y (i + 1) := by
  rw [S, c, d, m]
  field_simp
  ring

theorem Sderiv_dx {x y : List ℚ} {i : ℕ} (hdx : dx x i ≠ 0) :
    Sderiv x y i (dx x i) = b x y (i + 1) := by
  rw [Sderiv, c, d]
  field_simp
  ring

theorem seg_le (x : List ℚ) (q : ℚ) : seg x q ≤ x.length - 2 := by
  have h1 := digitize_le_length x q
  simp only [seg]
  omega

theorem idx_seg_le {x y : List ℚ} (h : Valid x y) {q : ℚ} (h0 : idx x 0 ≤ q) :
    idx x (seg x q) ≤ q := by
  have hc := valid_chain h
  obtain ⟨h3, _, _⟩ := h
  have hD1 : 0 < digitize x q := (le_iff_lt_digitize x hc 0 (by omega) q).1 h0
  have hDle := digitize_le_length x q
  have hseg_lt : seg x q < digitize x q := by simp only [seg]; omega
  have hseg_len : seg x q < x.length := by simp only [seg]; omega
  exact (le_iff_lt_digitize x hc (seg x q) hseg_len q).2 hseg_lt

theorem min_le_seg {x y : List ℚ} (h : Valid x y) {q : ℚ} {j : ℕ}
    (hj : j < x.length) (hle : idx x j ≤ q) : min j (x.length - 2) ≤ seg x q := by
  have hc := valid_chain h
  obtain ⟨h3, _, _⟩ := h
  have hjD : j < digitize x q := (le_iff_lt_digitize x hc j hj q).1 hle
  have hDle := digitize_le_length x q
  simp only [seg]
  omega

theorem seg_knot {x y : List ℚ} (h : Valid x y) {k : ℕ} (hk : k + 1 < x.length) :
    seg x (idx x k) = k := by
  have hc := valid_chain h
  obtain ⟨h3, _, _⟩ := h
  have hkD : k < digitize x (idx x k) :=
    (le_iff_lt_digitize x hc k (by omega) _).1 (le_refl _)
  have hD2 : digitize x (idx x k) ≤ k + 1 := by
    by_contra hcon
    push_neg at hcon
    have hmono := chain_mono hc (Nat.lt_succ_self k) hk
    have hge := (le_iff_lt_digitize x hc (k + 1) hk (idx x k)).2 (by omega)
    exact absurd hmono (not_lt_of_le hge)
  simp only [seg]
  omega

theorem seg_last {x y : List ℚ} (h : Valid x y) :
    seg x (idx x (x.length - 1)) = x.length - 2 := by
  have hc := valid_chain h
  obtain ⟨h3, _, _⟩ := h
  have hlast : x.length - 1 < digitize x (idx x (x.length - 1)) :=
    (le_iff_lt_digitize x hc (x.length - 1) (by omega) _).1 (le_refl _)
  have hle := digitize_le_length x (idx x (x.length - 1))
  simp only [seg]
  omega

theorem interpolate_ok {x y : List ℚ} (h : Valid x y) {xi : List ℚ}
    (hdom : ∀ q ∈ xi, idx x 0 ≤ q ∧ q ≤ idx x (x.length - 1)) :
    interpolate ⟨1, x⟩ ⟨1, y⟩ ⟨1, xi⟩ = .ok (xi.map (evalAt x y)) := by
  obtain ⟨h3, hlen, hall⟩ := h
  simp only [interpolate]
  rw [if_neg (by simp), if_neg (by simp), if_neg (by simp; omega),
    if_neg (by simp [hlen]), if_neg ?hdiff, if_neg ?hbound]
  case hdiff =>
    intro hcon
    rcases List.any_eq_true.1 hcon with ⟨v, hv, hvle⟩
    have hpos := List.all_eq_true.1 hall v hv
    simp only [decide_eq_true_eq] at hpos hvle
    linarith
  case hbound =>
    intro hcon
    rcases hcon with hlow | hhigh
    · rcases List.any_eq_true.1 hlow with ⟨q, hq, hqlt⟩
      have hb := (hdom q hq).1
      simp only [decide_eq_true_eq] at hqlt
      exact absurd hb (not_le_of_lt hqlt)
    · rcases List.any_eq_true.1 hhigh with ⟨q, hq, hqgt⟩
      have hb := (hdom q hq).2
      simp only [decide_eq_true_eq] at hqgt
      exact absurd hb (not_le_of_lt hqgt)

theorem interpolate_err_small {x y xi : List ℚ} (h : x.length < 3) :
    interpolate ⟨1, x⟩ ⟨1, y⟩ ⟨1, xi⟩ = .error (.valueError "array too small") := by
  simp only [interpolate]
  rw [if_neg (by simp), if_neg (by simp), if_pos (by simpa using h)]

theorem interpolate_err_mismatch {x y xi : List ℚ} (h3 : 3 ≤ x.length)
    (h : x.length ≠ y.length) :
    interpolate ⟨1, x⟩ ⟨1, y⟩ ⟨1, xi⟩ =
      .error (.valueError "size of x-array must match data shape") := by
  simp only [interpolate]
  rw [if_neg (by simp), if_neg (by simp), if_neg (by simp; omega),
    if_pos (by simpa using h)]

theorem interpolate_err_nonmono {x y xi : List ℚ} (h3 : 3 ≤ x.length)
    (hlen : x.length = y.length)
    (h : ¬((diff x).all fun v => decide (0 < v)) = true) :
    interpolate ⟨1, x⟩ ⟨1, y⟩ ⟨1, xi⟩ = .error (.valueError "x-axis not valid") := by
  simp only [interpolate]
  rw [if_neg (by simp), if_neg (by simp), if_neg (by simp; omega),
    if_neg (by simpa using hlen), if_pos ?hpos]
  case hpos =>
    rw [List.all_eq_true] at h
    push_neg at h
    rcases h with ⟨v, hv, hnv⟩
    refine List.any_eq_true.2 ⟨v, hv, ?_⟩
    simp only [decide_eq_true_eq] at hnv ⊢
    linarith [not_lt.1 (by simpa using hnv)]

theorem interpolate_err_domain {x y xi : List ℚ} (h : Valid x y)
    (hbad : ∃ q ∈ xi, q < idx x 0 ∨ idx x (x.length - 1) < q) :
    interpolate ⟨1, x⟩ ⟨1, y⟩ ⟨1, xi⟩ =
      .error (.valueError "interpolation x-axis out of bounds") := by
  obtain ⟨h3, hlen, hall⟩ := h
  simp only [interpolate]
  rw [if_neg (by simp), if_neg (by simp), if_neg (by simp; omega),
    if_neg (by simp [hlen]), if_neg ?hdiff, if_pos ?hbound]
  case hdiff =>
    intro hcon
    rcases List.any_eq_true.1 hcon with ⟨v, hv, hvle⟩
    have hpos := List.all_eq_true.1 hall v hv
    simp only [decide_eq_true_eq] at hpos hvle
    linarith
  case hbound =>
    rcases hbad with ⟨q, hq, hlow | hhigh⟩
    · exact Or.inl (List.any_eq_true.2 ⟨q, hq, by simpa using hlow⟩)
    · exact Or.inr (List.any_eq_true.2 ⟨q, hq, by simpa using hhigh⟩)

theorem evalAt_knot {x y : List ℚ} (h : Valid x y) {k : ℕ} (hk : k < x.length) :
    evalAt x y (idx x k) = idx y k := by
  have h3 := h.1
  rcases Nat.lt_or_ge k (x.length - 1) with hlt | hge
  · have hs := seg_knot h (k := k) (by omega)
    simp only [evalAt, hs, sub_self, mul_zero, zero_mul, add_zero, zero_add]
  · have hk_eq : k = x.length - 1 := by omega
    subst hk_eq
    have hs := seg_last h
    have hsucc : x.length - 2 + 1 = x.length - 1 := by omega
    have hdxne : dx x (x.length - 2) ≠ 0 := dx_ne_zero h (by omega)
    have hS := S_dx (x := x) (y := y) (i := x.length - 2) hdxne
    rw [hsucc] at hS
    simp only [evalAt, hs]
    rw [show idx x (x.length - 1) - idx x (x.length - 2) = dx x (x.length - 2) by
      rw [dx, hsucc]]
    rw [horner_eq_S, hS]

theorem foldr_max_le {l : List ℚ} {B : ℚ} (h0 : 0 ≤ B) (h : ∀ v ∈ l, v ≤ B) :
    l.foldr max 0 ≤ B := by
  induction l with
  | nil => simpa using h0
  | cons v t ih =>
    have hfold : (v :: t).foldr max 0 = max v (t.foldr max 0) := rfl
    rw [hfold]
    exact max_le (h v (List.mem_cons_self _ _)) (ih fun u hu => h u (List.mem_cons_of_mem _ hu))

theorem m_linear {x y : List ℚ} (h : Valid x y) {a s : ℚ}
    (hy : ∀ i < x.length, idx y i = a + s * idx x i) {i : ℕ} (hi : i + 1 < x.length) :
    m x y i = s := by
  have h1 := hy i (by omega)
  have h2 := hy (i + 1) hi
  have hne : dx x i ≠ 0 := dx_ne_zero h hi
  rw [m, h1, h2, dx] at *
  field_simp
  ring

theorem m1_linear {x y : List ℚ} (h : Valid x y) {a s : ℚ}
    (hy : ∀ i < x.length, idx y i = a + s * idx x i) (j : ℕ) :
    m1 x y j = s := by
  have h3 := h.1
  have hm : ∀ i, i + 1 < x.length → m x y i = s := fun i hi => m_linear h hy hi
  have hm0 := hm 0 (by omega)
  have hm1 := hm 1 (by omega)
  have hmp2 := hm (x.length - 2) (by omega)
  have hmp3 := hm (x.length - 3) (by omega)
  have hmm : mm x y = s := by rw [mm, hm0, hm1]; ring
  have hmmm : mmm x y = s := by rw [mmm, hmm, hm0]; ring
  have hmp : mp x y = s := by rw [mp, hmp2, hmp3]; ring
  have hmpp : mpp x y = s := by rw [mpp, hmp, hmp2]; ring
  simp only [m1]
  split_ifs with hc1 hc2 hc3 hc4
  · exact hmmm
  · exact hmm
  · exact hm (j - 2) (by omega)
  · exact hmp
  · exact hmpp

theorem f12_linear {x y : List ℚ} (h : Valid x y) {a s : ℚ}
    (hy : ∀ i < x.length, idx y i = a + s * idx x i) (i : ℕ) :
    f12 x y i = 0 := by
  simp [f12, f1, f2, dm, m1_linear h hy]

theorem maxf12_linear {x y : List ℚ} (h : Valid x y) {a s : ℚ}
    (hy : ∀ i < x.length, idx y i = a + s * idx x i) :
    maxf12 x y = 0 := by
  refine le_antisymm ?_ (maxf12_nonneg x y)
  refine foldr_max_le (le_refl 0) ?_
  intro v hv
  rcases List.mem_map.1 hv with ⟨i, -, rfl⟩
  rw [f12_linear h hy]

theorem b_linear {x y : List ℚ} (h : Valid x y) {a s : ℚ}
    (hy : ∀ i < x.length, idx y i = a + s * idx x i) (i : ℕ) :
    b x y i = s := by
  rw [b, if_neg, m1_linear h hy]
  rw [maxf12_linear h hy, f12_linear h hy]
  simp

theorem c_linear {x y : List ℚ} (h : Valid x y) {a s : ℚ}
    (hy : ∀ i < x.length, idx y i = a + s * idx x i) {i : ℕ} (hi : i + 1 < x.length) :
    c x y i = 0 := by
  rw [c, b_linear h hy, b_linear h hy, m_linear h hy hi]
  rw [show 3 * s - 2 * s - s = 0 by ring, zero_div]

theorem d_linear {x y : List ℚ} (h : Valid x y) {a s : ℚ}
    (hy : ∀ i < x.length, idx y i = a + s * idx x i) {i : ℕ} (hi : i + 1 < x.length) :
    d x y i = 0 := by
  rw [d, b_linear h hy, b_linear h hy, m_linear h hy hi]
  rw [show s + s - 2 * s = 0 by ring, zero_div]

theorem evalAt_linear {x y : List ℚ} (h : Valid x y) {a s : ℚ}
    (hy : ∀ i < x.length, idx y i = a + s * idx x i) (q : ℚ) :
    evalAt x y q = a + s * q := by
  have h3 := h.1
  have hk : seg x q + 1 < x.length := by have := seg_le x q; omega
  simp only [evalAt]
  rw [c_linear h hy hk, d_linear h hy hk, b_linear h hy, hy (seg x q) (by omega)]
  ring

theorem cubic_hasDerivAt (A B C D t : ℝ) :
    HasDerivAt (fun u : ℝ => A + B * u + C * u ^ 2 + D * u ^ 3)
      (B + 2 * C * t + 3 * D * t ^ 2) t := by
  have h0 : HasDerivAt (fun _ : ℝ => A) 0 t := hasDerivAt_const t A
  have h1 : HasDerivAt (fun u : ℝ => B * u) B t := by
    simpa using (hasDerivAt_id t).const_mul B
  have h2 : HasDerivAt (fun u : ℝ => C * u ^ 2) (C * (2 * t)) t := by
    simpa using (hasDerivAt_pow 2 t).const_mul C
  have h3 : HasDerivAt (fun u : ℝ => D * u ^ 3) (D * (3 * t ^ 2)) t := by
    simpa using (hasDerivAt_pow 3 t).const_mul D
  have hsum := ((h0.add h1).add h2).add h3
  convert hsum using 1
  ring

/-- C1: for every valid input, the per-point derivative scheme is the
one of the source: m1 extends the secant slopes with the linearly extrapolated
synthetic slopes mm = 2 m[0] - m[1], mmm = 2 mm - m[0], mp = 2 m[n-2] - m[n-3],
mpp = 2 mp - m[n-2]; f1[i] and f2[i] are the absolute consecutive differences
dm[i+2] and dm[i] of m1; maxf12 is the single global maximum of f1 + f2 over
i = 0 .. n - 1 (an attained upper bound); and b[i] is the default m1[i+1]
except exactly where f1 + f2 exceeds 1e-9 times that maximum, where it is the
weighted value (f1 m1[i+1] + f2 m1[i+2]) / (f1 + f2). -/
theorem c1_derivative_scheme (x y : List ℚ) (h : Valid x y) :
    (m1 x y 0 = 2 * (2 * m x y 0 - m x y 1) - m x y 0) ∧
    (m1 x y 1 = 2 * m x y 0 - m x y 1) ∧
    (∀ j, j + 2 ≤ x.length → m1 x y (j + 2) = m x y j) ∧
    (m1 x y (x.length + 1) = 2 * m x y (x.length - 2) - m x y (x.length - 3)) ∧
    (m1 x y (x.length + 2) =
      2 * (2 * m x y (x.length - 2) - m x y (x.length - 3)) - m x y (x.length - 2)) ∧
    (∀ i, f1 x y i = |m1 x y (i + 3) - m1 x y (i + 2)| ∧
      f2 x y i = |m1 x y (i + 1) - m1 x y i|) ∧
    (∀ i < x.length, f12 x y i ≤ maxf12 x y) ∧
    (∃ i < x.length, f12 x y i = maxf12 x y) ∧
    (∀ i < x.length,
      b x y i =
        if (1 / 1000000000 : ℚ) * maxf12 x y < f1 x y i + f2 x y i then
          (f1 x y i * m1 x y (i + 1) + f2 x y i * m1 x y (i + 2)) /
            (f1 x y i + f2 x y i)
        else m1 x y (i + 1)) := by
  have h3 := h.1
  refine ⟨?_, ?_, ?_, ?_, ?_, ?_, ?_, ?_, ?_⟩
  · rw [m1_zero, mmm, mm]
  · rw [m1_one, mm]
  · exact fun j hj => m1_mid x y j hj
  · rw [m1_penult x y (by omega), mp]
  · rw [m1_last, mpp, mp]
  · exact fun i => ⟨rfl, rfl⟩
  · exact fun i hi => le_maxf12 hi
  · exact maxf12_attained (by omega)
  · intro i hi
    rfl

/-- Witness for C1 at the concrete valid input x = [0, 1, 2], y = [0, 0, 1]. -/
theorem c1_derivative_scheme_witness :
    Valid [0, 1, 2] [0, 0, 1] ∧
    b [0, 1, 2] [0, 0, 1] 1 =
      if (1 / 1000000000 : ℚ) * maxf12 [0, 1, 2] [0, 0, 1] <
          f1 [0, 1, 2] [0, 0, 1] 1 + f2 [0, 1, 2] [0, 0, 1] 1 then
        (f1 [0, 1, 2] [0, 0, 1] 1 * m1 [0, 1, 2] [0, 0, 1] 2 +
            f2 [0, 1, 2] [0, 0, 1] 1 * m1 [0, 1, 2] [0, 0, 1] 3) /
          (f1 [0, 1, 2] [0, 0, 1] 1 + f2 [0, 1, 2] [0, 0, 1] 1)
      else m1 [0, 1, 2] [0, 0, 1] 2 := by
  have hv : Valid [0, 1, 2] [0, 0, 1] := by norm_num [Valid, diff]
  exact ⟨hv, ((((((((c1_derivative_scheme [0, 1, 2] [0, 0, 1]
    hv).2).2).2).2).2).2).2).2 1 (by norm_num)⟩

/-- C2: for every valid input and segment i = 0 .. n - 2, the coefficients are
c[i] = (3 m[i] - 2 b[i] - b[i+1]) / dx[i] and
d[i] = (b[i] + b[i+1] - 2 m[i]) / dx[i]^2, and the segment cubic
S(t) = y[i] + b[i] t + c[i] t^2 + d[i] t^3 interpolates values and
derivatives at both segment ends: S(0) = y[i], S(dx[i]) = y[i+1], and the derivative of S is b[i] at 0 and
b[i+1] at dx[i] (checked both as the formal derivative Sderiv and as a real
HasDerivAt fact). -/
theorem c2_segment_coefficients (x y : List ℚ) (h : Valid x y) (i : ℕ)
    (hi : i + 1 < x.length) :
    c x y i = (3 * m x y i - 2 * b x y i - b x y (i + 1)) / dx x i ∧
    d x y i = (b x y i + b x y (i + 1) - 2 * m x y i) / dx x i ^ 2 ∧
    S x y i 0 = idx y i ∧
    S x y i (dx x i) = idx y (i + 1) ∧
    Sderiv x y i 0 = b x y i ∧
    Sderiv x y i (dx x i) = b x y (i + 1) ∧
    (∀ t : ℝ, HasDerivAt
      (fun u : ℝ => (idx y i : ℝ) + (b x y i : ℝ) * u + (c x y i : ℝ) * u ^ 2 +
        (d x y i : ℝ) * u ^ 3)
      ((b x y i : ℝ) + 2 * (c x y i : ℝ) * t + 3 * (d x y i : ℝ) * t ^ 2) t) := by
  have hne : dx x i ≠ 0 := dx_ne_zero h hi
  exact ⟨rfl, rfl, S_zero x y i, S_dx hne, Sderiv_zero x y i, Sderiv_dx hne,
    fun t => cubic_hasDerivAt _ _ _ _ t⟩

/-- Witness for C2 at x = [0, 1, 2], y = [0, 0, 1], segment 0. -/
theorem c2_segment_coefficients_witness :
    Valid [0, 1, 2] [0, 0, 1] ∧
    S [0, 1, 2] [0, 0, 1] 0 (dx [0, 1, 2] 0) = idx [0, 0, 1] 1 ∧
    Sderiv [0, 1, 2] [0, 0, 1] 0 (dx [0, 1, 2] 0) = b [0, 1, 2] [0, 0, 1] 1 := by
  have hv : Valid [0, 1, 2] [0, 0, 1] := by norm_num [Valid, diff]
  have hc2 := c2_segment_coefficients [0, 1, 2] [0, 0, 1] hv 0 (by norm_num)
  exact ⟨hv, hc2.2.2.2.1, hc2.2.2.2.2.2.1⟩

/-- C3: for every valid input and in-domain query q, the selected segment
index k = seg x q is at most n - 2 (hence within [0, n-2]), satisfies
x[k] <= q, dominates min j (n-2) for every knot j with x[j] <= q (it is the
largest such index clamped to n - 2), and the evaluator returns the Horner
value ((d[k] t + c[k]) t + b[k]) t + y[k] with t = q - x[k]. -/
theorem c3_segment_lookup (x y : List ℚ) (h : Valid x y) (q : ℚ)
    (h0 : idx x 0 ≤ q) (h1 : q ≤ idx x (x.length - 1)) :
    seg x q ≤ x.length - 2 ∧
    idx x (seg x q) ≤ q ∧
    (∀ j < x.length, idx x j ≤ q → min j (x.length - 2) ≤ seg x q) ∧
    evalAt x y q =
      ((d x y (seg x q) * (q - idx x (seg x q)) + c x y (seg x q)) *
          (q - idx x (seg x q)) + b x y (seg x q)) * (q - idx x (seg x q)) +
        idx y (seg x q) := by
  refine ⟨seg_le x q, idx_seg_le h h0, fun j hj hle => min_le_seg h hj hle, ?_⟩
  simp only [evalAt]
  ring

/-- Witness for C3 at x = [0, 1, 2], y = [0, 0, 1], q = 1/2. -/
theorem c3_segment_lookup_witness :
    seg [0, 1, 2] (1 / 2) ≤ ([0, 1, 2] : List ℚ).length - 2 ∧
    idx [0, 1, 2] (seg [0, 1, 2] (1 / 2)) ≤ 1 / 2 := by
  have hv : Valid [0, 1, 2] [0, 0, 1] := by norm_num [Valid, diff]
  have hc3 := c3_segment_lookup [0, 1, 2] [0, 0, 1] hv (1 / 2)
    (by norm_num [idx]) (by norm_num [idx])
  exact ⟨hc3.1, hc3.2.1⟩

/-- C4: round trip: for every valid input, interpolating at the original
abscissas reproduces y exactly; every query equal to a knot x[k] yields
exactly y[k], in particular x[0] and x[n-1] yield y[0] and y[n-1]. -/
theorem c4_round_trip (x y : List ℚ) (h : Valid x y) :
    interpolate ⟨1, x⟩ ⟨1, y⟩ ⟨1, x⟩ = .ok y ∧
    (∀ k < x.length, evalAt x y (idx x k) = idx y k) ∧
    evalAt x y (idx x 0) = idx y 0 ∧
    evalAt x y (idx x (x.length - 1)) = idx y (x.length - 1) := by
  have h3 := h.1
  have hlen := h.2.1
  have hc := valid_chain h
  have hknot : ∀ k < x.length, evalAt x y (idx x k) = idx y k :=
    fun k hk => evalAt_knot h hk
  have hdom : ∀ q ∈ x, idx x 0 ≤ q ∧ q ≤ idx x (x.length - 1) := by
    intro q hq
    rcases List.mem_iff_getElem.1 hq with ⟨k, hk, rfl⟩
    have hidx : x[k] = idx x k := (List.getD_eq_getElem x 0 hk).symm
    rw [hidx]
    exact ⟨chain_mono_le hc (Nat.zero_le k) hk,
      chain_mono_le hc (by omega) (by omega)⟩
  refine ⟨?_, hknot, hknot 0 (by omega), hknot (x.length - 1) (by omega)⟩
  rw [interpolate_ok h hdom]
  congr 1
  refine List.ext_getElem (by simpa using hlen.symm) ?_
  intro n h1 h2
  rw [List.getElem_map]
  have hx : x[n] = idx x n := (List.getD_eq_getElem x 0 (by simpa using h1)).symm
  have hy : y[n] = idx y n := (List.getD_eq_getElem y 0 h2).symm
  rw [hx, hy]
  exact hknot n (by simpa using h1)

/-- Witness for C4 at x = [0, 1, 2], y = [0, 0, 1]. -/
theorem c4_round_trip_witness :
    interpolate ⟨1, [0, 1, 2]⟩ ⟨1, [0, 0, 1]⟩ ⟨1, [0, 1, 2]⟩ = .ok [0, 0, 1] := by
  have hv : Valid [0, 1, 2] [0, 0, 1] := by norm_num [Valid, diff]
  exact (c4_round_trip [0, 1, 2] [0, 0, 1] hv).1

/-- C5: for one-dimensional inputs, interpolate succeeds exactly when every
precondition holds (at least 3 knots, equal lengths, strictly increasing x,
all queries inside the inclusive interval [x[0], x[n-1]]), and each violated
precondition yields its typed ValueError, checked in source order; endpoint
queries are accepted by the success direction, and an error carries no
partial result. -/
theorem c5_validation (x y xi : List ℚ) :
    ((∃ r, interpolate ⟨1, x⟩ ⟨1, y⟩ ⟨1, xi⟩ = .ok r) ↔
      (Valid x y ∧ ∀ q ∈ xi, idx x 0 ≤ q ∧ q ≤ idx x (x.length - 1))) ∧
    (x.length < 3 →
      interpolate ⟨1, x⟩ ⟨1, y⟩ ⟨1, xi⟩ = .error (.valueError "array too small")) ∧
    (3 ≤ x.length → x.length ≠ y.length →
      interpolate ⟨1, x⟩ ⟨1, y⟩ ⟨1, xi⟩ =
        .error (.valueError "size of x-array must match data shape")) ∧
    (3 ≤ x.length → x.length = y.length → ¬x.Chain' (· < ·) →
      interpolate ⟨1, x⟩ ⟨1, y⟩ ⟨1, xi⟩ = .error (.valueError "x-axis not valid")) ∧
    (Valid x y → (∃ q ∈ xi, q < idx x 0 ∨ idx x (x.length - 1) < q) →
      interpolate ⟨1, x⟩ ⟨1, y⟩ ⟨1, xi⟩ =
        .error (.valueError "interpolation x-axis out of bounds")) := by
  refine ⟨⟨?_, ?_⟩, interpolate_err_small,
    fun h3 hne => interpolate_err_mismatch h3 hne,
    fun h3 hlen hmono => interpolate_err_nonmono h3 hlen
      (fun hall => hmono ((diff_all_pos_iff x).1 hall)),
    fun hv hbad => interpolate_err_domain hv hbad⟩
  · rintro ⟨r, hr⟩
    by_cases hsmall : x.length < 3
    · rw [interpolate_err_small hsmall] at hr
      exact absurd hr (by simp)
    push_neg at hsmall
    by_cases hmis : x.length = y.length
    case neg =>
      rw [interpolate_err_mismatch hsmall hmis] at hr
      exact absurd hr (by simp)
    by_cases hall : ((diff x).all fun v => decide (0 < v)) = true
    case neg =>
      rw [interpolate_err_nonmono hsmall hmis hall] at hr
      exact absurd hr (by simp)
    have hv : Valid x y := ⟨hsmall, hmis.symm, hall⟩
    refine ⟨hv, ?_⟩
    by_contra hdom
    push_neg at hdom
    rcases hdom with ⟨q, hq, hnot⟩
    have hbad : ∃ q ∈ xi, q < idx x 0 ∨ idx x (x.length - 1) < q := by
      refine ⟨q, hq, ?_⟩
      by_cases hlow : idx x 0 ≤ q
      · exact Or.inr (hnot hlow)
      · exact Or.inl (not_le.1 hlow)
    rw [interpolate_err_domain hv hbad] at hr
    exact absurd hr (by simp)
  · rintro ⟨hv, hdom⟩
    exact ⟨xi.map (evalAt x y), interpolate_ok hv hdom⟩

/-- Witness for C5: each rejection branch and the acceptance branch at
concrete inputs, endpoint queries included. -/
theorem c5_validation_witness :
    interpolate ⟨1, [0, 1]⟩ ⟨1, [0, 0]⟩ ⟨1, []⟩ =
      .error (.valueError "array too small") ∧
    interpolate ⟨1, [0, 1, 2]⟩ ⟨1, [0, 0]⟩ ⟨1, []⟩ =
      .error (.valueError "size of x-array must match data shape") ∧
    interpolate ⟨1, [0, 2, 1]⟩ ⟨1, [0, 0, 1]⟩ ⟨1, []⟩ =
      .error (.valueError "x-axis not valid") ∧
    interpolate ⟨1, [0, 1, 2]⟩ ⟨1, [0, 0, 1]⟩ ⟨1, [3]⟩ =
      .error (.valueError "interpolation x-axis out of bounds") ∧
    (∃ r, interpolate ⟨1, [0, 1, 2]⟩ ⟨1, [0, 0, 1]⟩ ⟨1, [0, 2]⟩ = .ok r) := by
  refine ⟨(c5_validation [0, 1] [0, 0] []).2.1 (by norm_num),
    (c5_validation [0, 1, 2] [0, 0] []).2.2.1 (by norm_num) (by norm_num),
    (c5_validation [0, 2, 1] [0, 0, 1] []).2.2.2.1 (by norm_num) (by norm_num) ?hmono,
    (c5_validation [0, 1, 2] [0, 0, 1] [3]).2.2.2.2 (by norm_num [Valid, diff])
      ⟨3, by norm_num, Or.inr (by norm_num [idx])⟩,
    ((c5_validation [0, 1, 2] [0, 0, 1] [0, 2]).1).2
      ⟨by norm_num [Valid, diff], ?hdom⟩⟩
  case hmono =>
    intro hcon
    have h21 := (List.chain'_cons.1 (List.chain'_cons.1 hcon).2).1
    norm_num at h21
  case hdom =>
    intro q hq
    simp only [List.mem_cons, List.not_mem_nil, or_false] at hq
    rcases hq with rfl | rfl <;> norm_num [idx]

/-- C6: the concrete example of the module docstring: x = [0, 1, 2],
y = [0, 0, 1], x_new = [0.5, 1.5] yields exactly [-0.125, 0.375], with
derivatives b = [-1/2, 1/2, 3/2] and coefficients c = [1/2, 1/2],
d = [0, 0]. -/
theorem c6_concrete_example :
    interpolate ⟨1, [0, 1, 2]⟩ ⟨1, [0, 0, 1]⟩ ⟨1, [1 / 2, 3 / 2]⟩ =
      .ok [-(1 / 8), 3 / 8] ∧
    b [0, 1, 2] [0, 0, 1] 0 = -(1 / 2) ∧
    b [0, 1, 2] [0, 0, 1] 1 = 1 / 2 ∧
    b [0, 1, 2] [0, 0, 1] 2 = 3 / 2 ∧
    c [0, 1, 2] [0, 0, 1] 0 = 1 / 2 ∧
    c [0, 1, 2] [0, 0, 1] 1 = 1 / 2 ∧
    d [0, 1, 2] [0, 0, 1] 0 = 0 ∧
    d [0, 1, 2] [0, 0, 1] 1 = 0 := by
  norm_num [interpolate, diff, evalAt, seg, digitize, b, c, d, f1, f2, f12, dm, m1,
    maxf12, eps, mm, mmm, mp, mpp, m, dx, idx, List.range_succ, List.countP,
    List.countP.go, abs_eq_max_neg, sup_eq_max, max_def]

/-- C7: when the global maximum of the combined weight f12 is 0, the weighted
branch fires at no index below n and every b[i] keeps its default m1[i+1]
(so no division by a zero weight occurs); for exactly linear data
y[i] = a + s x[i], every derivative equals the common slope s, every segment
has c = d = 0, and any query in the inclusive domain evaluates to the exact
linear value a + s q. -/
theorem c7_linear_data (x y : List ℚ) (h : Valid x y) :
    (maxf12 x y = 0 → ∀ i < x.length, ¬eps * maxf12 x y < f12 x y i) ∧
    (maxf12 x y = 0 → ∀ i < x.length, b x y i = m1 x y (i + 1)) ∧
    (∀ a s : ℚ, (∀ i < x.length, idx y i = a + s * idx x i) →
      (∀ i < x.length, b x y i = s) ∧
      (∀ i, i + 1 < x.length → c x y i = 0 ∧ d x y i = 0) ∧
      (∀ q, idx x 0 ≤ q → q ≤ idx x (x.length - 1) → evalAt x y q = a + s * q)) := by
  have hcond : maxf12 x y = 0 → ∀ i < x.length, ¬eps * maxf12 x y < f12 x y i := by
    intro hmax i hi
    have hle := le_maxf12 (x := x) (y := y) (i := i) hi
    rw [hmax] at hle ⊢
    rw [mul_zero]
    exact not_lt_of_le hle
  refine ⟨hcond, fun hmax i hi => b_neg_branch (hcond hmax i hi), ?_⟩
  intro a s hy
  exact ⟨fun i _ => b_linear h hy i,
    fun i hi => ⟨c_linear h hy hi, d_linear h hy hi⟩,
    fun q _ _ => evalAt_linear h hy q⟩

/-- Witness for C7 on the exactly linear data x = y = [0, 1, 2, 3, 4]. -/
theorem c7_linear_data_witness :
    Valid [0, 1, 2, 3, 4] [0, 1, 2, 3, 4] ∧
    b [0, 1, 2, 3, 4] [0, 1, 2, 3, 4] 2 = 1 ∧
    c [0, 1, 2, 3, 4] [0, 1, 2, 3, 4] 1 = 0 ∧
    d [0, 1, 2, 3, 4] [0, 1, 2, 3, 4] 1 = 0 ∧
    evalAt [0, 1, 2, 3, 4] [0, 1, 2, 3, 4] (5 / 2) = 0 + 1 * (5 / 2) := by
  have hv : Valid [0, 1, 2, 3, 4] [0, 1, 2, 3, 4] := by norm_num [Valid, diff]
  have hy : ∀ i < ([0, 1, 2, 3, 4] : List ℚ).length,
      idx [0, 1, 2, 3, 4] i = 0 + 1 * idx [0, 1, 2, 3, 4] i := by
    intro i hi
    rw [zero_add, one_mul]
  have hc7 := (c7_linear_data [0, 1, 2, 3, 4] [0, 1, 2, 3, 4] hv).2.2 0 1 hy
  refine ⟨hv, hc7.1 2 (by norm_num), (hc7.2.1 1 (by norm_num)).1,
    (hc7.2.1 1 (by norm_num)).2, hc7.2.2 (5 / 2) (by norm_num [idx]) (by norm_num [idx])⟩

/-- C8 counterexample: x = [0, 1, 2, 3], y = [0, 100, 101, 300] is a valid,
strictly increasing input with all secant slopes positive, yet the query
q = 11/10 strictly inside (x[1], x[2]) evaluates to 26213/250 = 104.852,
exceeding max(y[1], y[2]) = 101 by more than 3: the interpolant overshoots
the local endpoint range by far more than any small tolerance. -/
theorem c8_counterexample :
    Valid [0, 1, 2, 3] [0, 100, 101, 300] ∧
    (((diff [0, 100, 101, 300]).all fun v => decide (0 < v)) = true) ∧
    0 < m [0, 1, 2, 3] [0, 100, 101, 300] 0 ∧
    0 < m [0, 1, 2, 3] [0, 100, 101, 300] 1 ∧
    0 < m [0, 1, 2, 3] [0, 100, 101, 300] 2 ∧
    idx [0, 1, 2, 3] 1 < 11 / 10 ∧
    (11 / 10 : ℚ) < idx [0, 1, 2, 3] 2 ∧
    evalAt [0, 1, 2, 3] [0, 100, 101, 300] (11 / 10) = 26213 / 250 ∧
    max (idx [0, 100, 101, 300] 1) (idx [0, 100, 101, 300] 2) + 3 <
      evalAt [0, 1, 2, 3] [0, 100, 101, 300] (11 / 10) := by
  norm_num [Valid, interpolate, diff, evalAt, seg, digitize, b, c, d, f1, f2, f12, dm,
    m1, maxf12, eps, mm, mmm, mp, mpp, m, dx, idx, List.range_succ, List.countP,
    List.countP.go, abs_eq_max_neg, sup_eq_max, max_def]

/-- C8 amended: the Akima weighting does not keep interpolated values inside
the local endpoint range (see the counterexample); what holds is the
bounded-derivative property behind it: at every interior point
1 <= i <= n - 2, the derivative b[i] lies in the closed interval spanned by
the two adjacent secant slopes m[i-1] and m[i] (the weighted value is a
convex combination of them, the default value is m[i-1] itself). -/
theorem c8_interior_derivative_bounds (x y : List ℚ) (h : Valid x y) (i : ℕ)
    (h1 : 1 ≤ i) (h2 : i + 1 < x.length) :
    min (m x y (i - 1)) (m x y i) ≤ b x y i ∧
    b x y i ≤ max (m x y (i - 1)) (m x y i) := by
  have hm1a : m1 x y (i + 1) = m x y (i - 1) := by
    have := m1_mid x y (i - 1) (by omega)
    rw [show i - 1 + 2 = i + 1 by omega] at this
    exact this
  have hm1b : m1 x y (i + 2) = m x y i := m1_mid x y i (by omega)
  by_cases hcond : eps * maxf12 x y < f12 x y i
  · rw [b_pos_branch hcond, hm1a, hm1b]
    have hsum : 0 < f1 x y i + f2 x y i := by
      have h0 : (0 : ℚ) ≤ eps * maxf12 x y :=
        mul_nonneg (by norm_num [eps]) (maxf12_nonneg x y)
      have := lt_of_le_of_lt h0 hcond
      simpa [f12] using this
    exact convex_combination_bounds (abs_nonneg _) (abs_nonneg _) hsum
  · rw [b_neg_branch hcond, hm1a]
    exact ⟨min_le_left _ _, le_max_left _ _⟩

/-- Witness for the amended C8 at x = [0, 1, 2], y = [0, 0, 1], i = 1. -/
theorem c8_interior_derivative_bounds_witness :
    min (m [0, 1, 2] [0, 0, 1] 0) (m [0, 1, 2] [0, 0, 1] 1) ≤ b [0, 1, 2] [0, 0, 1] 1 ∧
    b [0, 1, 2] [0, 0, 1] 1 ≤ max (m [0, 1, 2] [0, 0, 1] 0) (m [0, 1, 2] [0, 0, 1] 1) := by
  have hv : Valid [0, 1, 2] [0, 0, 1] := by norm_num [Valid, diff]
  exact c8_interior_derivative_bounds [0, 1, 2] [0, 0, 1] hv 1 (by norm_num) (by norm_num)

/-- C9 counterexample: a two-dimensional y raises NotImplementedError
(message: implemented in C extension module), which is not the ValueError
kind used by the validation checks, so not every non-1D input produces a
shape validation failure of that kind. -/
theorem c9_counterexample :
    interpolate ⟨1, [0, 1, 2]⟩ ⟨2, [0, 0, 1]⟩ ⟨1, [1 / 2]⟩ =
      .error (.notImplementedError "implemented in C extension module") ∧
    (∀ msg : String,
      PyError.notImplementedError "implemented in C extension module" ≠
        PyError.valueError msg) := by
  constructor
  · norm_num [interpolate]
  · intro msg hcon
    exact PyError.noConfusion hcon

/-- C9 amended: a non-1D x or x_new raises the shape ValueError saying
x-arrays must be one dimensional, before any computation, but a non-1D y
instead raises NotImplementedError saying implemented in C extension module,
a different error type from the validation ValueErrors, also before any
computation. -/
theorem c9_shape_errors (x y xi : Arr) :
    (y.ndim ≠ 1 → interpolate x y xi =
      .error (.notImplementedError "implemented in C extension module")) ∧
    (y.ndim = 1 → x.ndim ≠ 1 ∨ xi.ndim ≠ 1 → interpolate x y xi =
      .error (.valueError "x-arrays must be one dimensional")) := by
  constructor
  · intro hy
    rw [interpolate, if_pos (Or.inr (Or.inr hy))]
  · intro hy hx
    rw [interpolate, if_neg (by simp [hy]), if_pos hx]

/-- Witness for the amended C9 at concrete shapes. -/
theorem c9_shape_errors_witness :
    interpolate ⟨1, [0, 1, 2]⟩ ⟨2, [0, 0, 1]⟩ ⟨1, []⟩ =
      .error (.notImplementedError "implemented in C extension module") ∧
    interpolate ⟨2, [0, 1, 2]⟩ ⟨1, [0, 0, 1]⟩ ⟨1, []⟩ =
      .error (.valueError "x-arrays must be one dimensional") :=
  ⟨(c9_shape_errors ⟨1, [0, 1, 2]⟩ ⟨2, [0, 0, 1]⟩ ⟨1, []⟩).1 (by norm_num),
    (c9_shape_errors ⟨2, [0, 1, 2]⟩ ⟨1, [0, 0, 1]⟩ ⟨1, []⟩).2 rfl (Or.inl (by norm_num))⟩

/-- C10: on valid inputs the output is the map of the evaluator over x_new:
it has the same length, position j holds the interpolated value at
x_new[j], and the empty query list raises no error and yields the empty
output. -/
theorem c10_output_shape (x y : List ℚ) (h : Valid x y) (xi : List ℚ)
    (hdom : ∀ q ∈ xi, idx x 0 ≤ q ∧ q ≤ idx x (x.length - 1)) :
    interpolate ⟨1, x⟩ ⟨1, y⟩ ⟨1, xi⟩ = .ok (xi.map (evalAt x y)) ∧
    (xi.map (evalAt x y)).length = xi.length ∧
    (∀ j, j < xi.length → (xi.map (evalAt x y)).getD j 0 = evalAt x y (xi.getD j 0)) ∧
    (xi = [] → interpolate ⟨1, x⟩ ⟨1, y⟩ ⟨1, xi⟩ = .ok []) := by
  have hok := interpolate_ok h hdom
  refine ⟨hok, List.length_map _ _, ?_, ?_⟩
  · intro j hj
    have hjm : j < (xi.map (evalAt x y)).length := by simpa using hj
    rw [List.getD_eq_getElem _ _ hjm, List.getD_eq_getElem _ _ hj, List.getElem_map]
  · intro hnil
    subst hnil
    simpa using hok

/-- Witness for C10 both on a nonempty and on the empty query list. -/
theorem c10_output_shape_witness :
    interpolate ⟨1, [0, 1, 2]⟩ ⟨1, [0, 0, 1]⟩ ⟨1, [1 / 2, 3 / 2]⟩ =
      .ok (([1 / 2, 3 / 2] : List ℚ).map (evalAt [0, 1, 2] [0, 0, 1])) ∧
    interpolate ⟨1, [0, 1, 2]⟩ ⟨1, [0, 0, 1]⟩ ⟨1, []⟩ = .ok [] := by
  have hv : Valid [0, 1, 2] [0, 0, 1] := by norm_num [Valid, diff]
  have hdom : ∀ q ∈ ([1 / 2, 3 / 2] : List ℚ),
      idx [0, 1, 2] 0 ≤ q ∧ q ≤ idx [0, 1, 2] (([0, 1, 2] : List ℚ).length - 1) := by
    intro q hq
    simp only [List.mem_cons, List.not_mem_nil, or_false] at hq
    rcases hq with rfl | rfl <;> norm_num [idx]
  refine ⟨(c10_output_shape [0, 1, 2] [0, 0, 1] hv [1 / 2, 3 / 2] hdom).1, ?_⟩
  exact (c10_output_shape [0, 1, 2] [0, 0, 1] hv [] (by simp)).2.2.2 rfl

end Akima
